import Mathlib

/-
Verification of the nwispy core: the helper module (`nwispy_helpers.py`,
functions `is_float`, `subset_data`, `find_start_end_dates`) and the
webservice module (`nwispy_webservice.py`, functions `read_webrequest_in`
and `encode_url`).  Each Python function is shallowly embedded as an
executable Lean definition; dates and data values are modelled as integers
(ordinal days / measurements), Python byte strings as lists of characters.
-/

/-! ### Helper module: `subset_data` and `find_start_end_dates` -/

/-- Error outcomes of `subset_data`: the explicit `ValueError` raised on a
length mismatch, the `TypeError` raised by `int(...)` when `np.where`
returns an index array whose size differs from one, and the `IndexError`
raised by `dates[0]` / `dates[-1]` on an empty array. -/
inductive SubsetErr where
  | lengthMismatch
  | whereError
  | indexError
  deriving DecidableEq, Repr

/-- Indices (starting at offset `k`) at which value `d` occurs in the list:
the embedding of `np.where(dates == d)[0]` for a 1-d array. -/
def idxsOfFrom (d : Int) : List Int → Nat → List Nat
  | [], _ => []
  | x :: xs, k => if x = d then k :: idxsOfFrom d xs (k + 1) else idxsOfFrom d xs (k + 1)

/-- Embedding of `np.where(dates == d)[0]`. -/
def idxsOf (dates : List Int) (d : Int) : List Nat := idxsOfFrom d dates 0

/-- Embedding of the clamping of `start_date` in `subset_data`:
`if start_date < dates[0] or start_date > dates[-1]: start_date = dates[0]`. -/
def clampStart (first last v : Int) : Int := if v < first ∨ v > last then first else v

/-- Embedding of the clamping of `end_date` in `subset_data`:
`if end_date > dates[-1] or end_date < dates[0]: end_date = dates[-1]`. -/
def clampEnd (first last v : Int) : Int := if v > last ∨ v < first then last else v

/-- Embedding of `nwispy_helpers.subset_data`.  Checks the length invariant,
clamps the requested window to the first/last dates, looks the (clamped)
endpoints up with `np.where` (which must yield exactly one index each, or
`int(...)` raises a `TypeError`), and returns the inclusive slice
`[start_idx : end_idx + 1]` of both arrays. -/
def subset_data (dates data : List Int) (start_date end_date : Int) :
    Except SubsetErr (List Int × List Int) :=
  if dates.length ≠ data.length then .error .lengthMismatch
  else
    match dates.head?, dates.getLast? with
    | some first, some last =>
      match idxsOf dates (clampStart first last start_date),
            idxsOf dates (clampEnd first last end_date) with
      | [si], [ei] =>
        .ok ((dates.drop si).take (ei + 1 - si), (data.drop si).take (ei + 1 - si))
      | _, _ => .error .whereError
    | _, _ => .error .indexError

/-- Embedding of `nwispy_helpers.find_start_end_dates`: the start date is the
later of the two first entries, the end date the earlier of the two last
entries; accessing `[0]` / `[-1]` of an empty array raises `IndexError`,
modelled by `none`. -/
def find_start_end_dates (model_dates observed_dates : List Int) : Option (Int × Int) :=
  match model_dates.head?, observed_dates.head?, model_dates.getLast?, observed_dates.getLast? with
  | some m0, some o0, some mL, some oL =>
    some (if o0 > m0 then o0 else m0, if oL > mL then mL else oL)
  | _, _, _, _ => none

/-! ### Webservice module: `read_webrequest_in` -/

/-- Python byte strings are modelled as lists of characters. -/
abbrev Chars := List Char

/-- The whitespace characters removed by Python `str.strip()`. -/
def isPySpace (c : Char) : Bool :=
  c = ' ' || c = '\t' || c = '\n' || c = '\r' || c = '\x0b' || c = '\x0c'

/-- Embedding of Python `str.strip()`. -/
def pyStrip (l : Chars) : Chars :=
  ((l.dropWhile isPySpace).reverse.dropWhile isPySpace).reverse

/-- Embedding of Python `str.split(sep)` for a one-character separator:
splits at every occurrence without collapsing, and yields `[""]` on the
empty string. -/
def splitSep (sep : Char) : Chars → List Chars
  | [] => [[]]
  | c :: r =>
    if c = sep then [] :: splitSep sep r
    else
      match splitSep sep r with
      | p :: t => (c :: p) :: t
      | [] => [[c]]

/-- Scan of `re.search`: the matcher `f` embeds one attempt of the pattern
anchored at the current position; the search tries every start position of
the string, leftmost success first. -/
def reSearch {β : Type} (f : Chars → Option β) : Chars → Option β
  | [] => f []
  | l@(_ :: rest) =>
    match f l with
    | some g => some g
    | none => reSearch f rest

/-- Attempt of the pattern `(#)(.+)` at the current position: a `#` followed
by at least one non-newline character; the greedy group 2 runs to the next
newline or the end of the string. -/
def hashAt : Chars → Option Chars
  | '#' :: c :: r =>
    if c = '\n' then none else some ((c :: r).takeWhile (· != '\n'))
  | _ => none

/-- Attempt of the pattern `(site)\t([0-9]+)` at the current position;
group 2 is the maximal digit run after the tab. -/
def siteAt : Chars → Option Chars
  | 's' :: 'i' :: 't' :: 'e' :: '\t' :: r =>
    match r.takeWhile Char.isDigit with
    | [] => none
    | ds => some ds
  | _ => none

/-- Greedy `[0-9]+` followed by a literal tab (the tab cannot be reached by
a shorter digit run, so the backtracking engine accepts exactly the maximal
run). -/
def digitsThenTab (l : Chars) : Option (Chars × Chars) :=
  match l.span Char.isDigit with
  | ([], _) => none
  | (ds, rest) =>
    match rest with
    | '\t' :: r => some (ds, r)
    | _ => none

/-- Greedy `[0-9]{1,2}` followed by the literal separator `sep`, as the
backtracking engine resolves it: two digits are taken when the separator
follows them, one digit otherwise when the separator follows it. -/
def upToTwoDigitsThen (sep : Char) : Chars → Option (Chars × Chars)
  | a :: b :: c :: r =>
    if a.isDigit && b.isDigit && (c = sep) then some ([a, b], r)
    else if a.isDigit && (b = sep) then some ([a], c :: r)
    else none
  | [a, b] =>
    if a.isDigit && (b = sep) then some ([a], []) else none
  | _ => none

/-- The pattern piece `[0-9]{4}-[0-9]{1,2}-[0-9]{1,2}` followed by the
literal `sep`; returns the matched date text (the group content) and the
remainder after the separator. -/
def dateThen (sep : Char) : Chars → Option (Chars × Chars)
  | a :: b :: c :: d :: '-' :: r =>
    if a.isDigit && b.isDigit && c.isDigit && d.isDigit then
      match upToTwoDigitsThen '-' r with
      | some (m, r2) =>
        match upToTwoDigitsThen sep r2 with
        | some (dd, r3) => some (a :: b :: c :: d :: '-' :: (m ++ '-' :: dd), r3)
        | none => none
      | none => none
    else none
  | _ => none

/-- Attempt of the tail of the data-request pattern after its first tab:
`([0-9]+)\t(date)\t(date)\t(.+)`. -/
def dvIvTail (r : Chars) : Option (Chars × Chars × Chars × Chars) :=
  match digitsThenTab r with
  | none => none
  | some (site, r1) =>
    match dateThen '\t' r1 with
    | none => none
    | some (d1, r2) =>
      match dateThen '\t' r2 with
      | none => none
      | some (d2, r3) =>
        match r3 with
        | c :: _ =>
          if c = '\n' then none
          else some (site, d1, d2, r3.takeWhile (· != '\n'))
        | [] => none

/-- Attempt of the data-request pattern
`(dv|iv|)\t([0-9]+)\t([0-9]{4}-[0-9]{1,2}-[0-9]{1,2})\t(same)\t(.+)` at the
current position.  The alternation tries `dv`, then `iv`, then the empty
string; the three alternatives disagree on the first character, so at one
position at most one of them can reach past the tab. -/
def dvIvAt : Chars → Option (Chars × Chars × Chars × Chars × Chars)
  | 'd' :: 'v' :: '\t' :: r => (dvIvTail r).map fun g => (['d', 'v'], g)
  | 'i' :: 'v' :: '\t' :: r => (dvIvTail r).map fun g => (['i', 'v'], g)
  | '\t' :: r => (dvIvTail r).map fun g => ([], g)
  | _ => none

/-- Search of the header/comment pattern in a line. -/
def searchHash (line : Chars) : Option Chars := reSearch hashAt line

/-- Search of the data-request pattern in a line. -/
def searchDvIv (line : Chars) : Option (Chars × Chars × Chars × Chars × Chars) :=
  reSearch dvIvAt line

/-- Search of the site-only pattern in a line. -/
def searchSite (line : Chars) : Option Chars := reSearch siteAt line

/-- One parsed request: the dictionary appended to `data["requests"]`.  For
a site-only row Python stores the empty string in the dates and parameters
fields; the empty string and the empty list have the same image under the
only consumer of the parameters field (`",".join` in `encode_url`), so both
are modelled as `[]`. -/
structure WebRequest where
  dataType : Chars
  siteNumber : Chars
  startDate : Chars
  endDate : Chars
  parameters : List Chars
  deriving DecidableEq, Repr

/-- The dictionary built by `read_webrequest_in`. -/
structure WebData where
  columnNames : List Chars
  requests : List WebRequest
  deriving DecidableEq, Repr

/-- One iteration of the parser loop: the three patterns are searched
independently in the line and every match contributes — the header match
overwrites `column names`, and each of the other two appends one request. -/
def processLine (d : WebData) (line : Chars) : WebData :=
  let d1 :=
    match searchHash line with
    | some g2 => { d with columnNames := splitSep '\t' (pyStrip g2) }
    | none => d
  let d2 :=
    match searchDvIv line with
    | some (g1, g2, g3, g4, g5) =>
      { d1 with requests := d1.requests ++
          [⟨g1, g2, g3, g4, splitSep '\t' (pyStrip g5)⟩] }
    | none => d1
  match searchSite line with
  | some g2 =>
    { d2 with requests := d2.requests ++ [⟨['s', 'i', 't', 'e'], g2, [], [], []⟩] }
  | none => d2

/-- Embedding of `read_webrequest_in`, applied to the list of lines produced
by `filestream.readlines()`. -/
def read_webrequest_in (lines : List Chars) : WebData :=
  lines.foldl processLine ⟨[], []⟩


/-! ### Webservice module: `encode_url`, and standard query decoding -/

/-- The characters Python 2 `urllib.quote` never escapes (its
`always_safe` set): ASCII letters, digits, and `_.-`. -/
def alwaysSafe (c : Char) : Bool :=
  c.isAlpha || c.isDigit || c = '_' || c = '.' || c = '-'

/-- Upper-case hexadecimal digit of a value below 16. -/
def hexDigit (n : Nat) : Char :=
  if n < 10 then Char.ofNat ('0'.toNat + n) else Char.ofNat ('A'.toNat + (n - 10))

/-- Percent escape of one byte, e.g. `%2C` for the comma. -/
def percentEnc (c : Char) : Chars :=
  ['%', hexDigit (c.toNat / 16 % 16), hexDigit (c.toNat % 16)]

/-- Embedding of Python 2 `urllib.quote_plus` with its default empty safe
string: safe characters stand for themselves, a space becomes `+`, every
other byte becomes a percent escape. -/
def quotePlus (s : Chars) : Chars :=
  (s.map fun c => if alwaysSafe c then [c] else if c = ' ' then ['+'] else percentEnc c).flatten

/-- Embedding of Python 2 `urllib.urlencode` on a key/value sequence: each
pair is quoted and glued with `=`, the pairs are glued with `&`. -/
def urlencode (ps : List (Chars × Chars)) : Chars :=
  List.intercalate ['&'] (ps.map fun p => quotePlus p.1 ++ '=' :: quotePlus p.2)

/-- Embedding of `nwispy_webservice.encode_url`.  The five entries of the
`user_parameters` dictionary are listed in the iteration order of the
Python 2 dict with these five fixed string keys — the order documented by
the repository's own test expectation
(`parameterCD=...&endDt=...&startDt=...&site=...&format=rdb`). -/
def encode_url (r : WebRequest) : Chars :=
  urlencode
    [("parameterCD".data, List.intercalate [','] r.parameters),
     ("endDt".data, r.endDate),
     ("startDt".data, r.startDate),
     ("site".data, r.siteNumber),
     ("format".data, "rdb".data)]

/-- Hexadecimal digit test used by standard percent decoding. -/
def isHexDigit (c : Char) : Bool :=
  c.isDigit || (decide ('A' ≤ c) && decide (c ≤ 'F')) || (decide ('a' ≤ c) && decide (c ≤ 'f'))

/-- Value of a hexadecimal digit character. -/
def hexVal (c : Char) : Nat :=
  if c.isDigit then c.toNat - '0'.toNat
  else if decide ('A' ≤ c) && decide (c ≤ 'F') then c.toNat - 'A'.toNat + 10
  else if decide ('a' ≤ c) && decide (c ≤ 'f') then c.toNat - 'a'.toNat + 10
  else 0

/-- Standard percent-decoding of a query component: `+` becomes a space and
`%XY` with two hexadecimal digits becomes the byte `16*X+Y`; any other
character stands for itself. -/
def unquotePlus : Chars → Chars
  | [] => []
  | c :: r =>
    if c = '+' then ' ' :: unquotePlus r
    else if c = '%' then
      match r with
      | a :: b :: r2 =>
        if isHexDigit a && isHexDigit b
        then Char.ofNat (16 * hexVal a + hexVal b) :: unquotePlus r2
        else '%' :: unquotePlus (a :: b :: r2)
      | [a] => if a = '+' then ['%', ' '] else if a = '%' then ['%', '%'] else ['%', a]
      | [] => ['%']
    else c :: unquotePlus r

/-- Split at the first character satisfying `p`: the part before and the
part after, or `none` when no character matches. -/
def splitFirst (p : Char → Bool) : Chars → Option (Chars × Chars)
  | [] => none
  | c :: r =>
    if p c then some ([], r)
    else
      match splitFirst p r with
      | some (a, b) => some (c :: a, b)
      | none => none

/-- Split a query pair at its first `=`. -/
def splitEqFirst (l : Chars) : Chars × Chars :=
  match splitFirst (· == '=') l with
  | some (a, b) => (a, b)
  | none => (l, [])

/-- Standard decoding of a query string: split on `&`, split each pair at
its first `=`, percent-decode key and value. -/
def decodeQuery (q : Chars) : List (Chars × Chars) :=
  (splitSep '&' q).map fun part =>
    (unquotePlus (splitEqFirst part).1, unquotePlus (splitEqFirst part).2)


/-! ### Helper module: `is_float` -/

/-- Drop one optional leading sign character. -/
def dropSign : Chars → Chars
  | c :: r => if c = '+' || c = '-' then r else c :: r
  | [] => []

/-- Case-insensitive comparison with a lower-case word. -/
def lowerIs (l w : Chars) : Bool := (l.map Char.toLower) == w

/-- The special tokens CPython accepts in `float(str)` after the optional
sign: `inf`, `infinity` and `nan`, case-insensitively. -/
def isInfNan (l : Chars) : Bool :=
  lowerIs l "inf".data || lowerIs l "infinity".data || lowerIs l "nan".data

/-- The exponent marker characters. -/
def isE (c : Char) : Bool := c = 'e' || c = 'E'

/-- Exponent as CPython's float parser consumes it: the end of the string,
or `e`/`E`, an optional sign and at least one digit reaching the end. -/
def expoOk : Chars → Bool
  | [] => true
  | c :: r =>
    isE c && (!(dropSign r).isEmpty && (dropSign r).all Char.isDigit)

/-- Number as CPython's float parser consumes it: an integer digit run, an
optional fraction introduced by a dot (with at least one digit on one of
the two sides), then an optional exponent; the whole string must be
consumed. -/
def numberOk (l : Chars) : Bool :=
  match l.dropWhile Char.isDigit with
  | [] => !(l.takeWhile Char.isDigit).isEmpty
  | c :: r =>
    if c = '.' then
      (!(l.takeWhile Char.isDigit).isEmpty || !(r.takeWhile Char.isDigit).isEmpty) &&
        expoOk (r.dropWhile Char.isDigit)
    else !(l.takeWhile Char.isDigit).isEmpty && expoOk (c :: r)

/-- Acceptance of CPython 2's `float(str)` on a byte string: optional
surrounding whitespace, an optional sign, then a special token or a
number. -/
def pyFloatOk (l : Chars) : Bool :=
  isInfNan (dropSign (pyStrip l)) || numberOk (dropSign (pyStrip l))

/-- Embedding of `nwispy_helpers.is_float`: on a string argument `float`
raises only `ValueError`, which the `except` clause catches, so the
function totally returns the acceptance verdict of the float parser. -/
def is_float (value : Chars) : Bool := pyFloatOk value

/-- Modelled from the spec: a mantissa of "standard decimal notation",
stated by dot-splitting — the token is a non-empty digit string, or two
digit strings around one dot with at least one digit present. -/
def specMantissa (l : Chars) : Bool :=
  match splitSep '.' l with
  | [a] => !a.isEmpty && a.all Char.isDigit
  | [a, b] => a.all Char.isDigit && b.all Char.isDigit && (!a.isEmpty || !b.isEmpty)
  | _ => false

/-- Modelled from the spec: an exponent of "standard scientific notation" —
an optional sign and a non-empty digit string. -/
def specExponent (l : Chars) : Bool :=
  !(dropSign l).isEmpty && (dropSign l).all Char.isDigit

/-- Modelled from the spec: mantissa optionally followed by `e`/`E` and an
exponent, with the split made at the first `e`/`E`. -/
def specNum (t : Chars) : Bool :=
  match splitFirst isE t with
  | none => specMantissa t
  | some (m, ex) => specMantissa m && specExponent ex

/-- Modelled from the spec: "parses as a floating-point value under
standard decimal/scientific notation" — an optional sign, a decimal
mantissa and an optional exponent. -/
def standardDecSci (l : Chars) : Bool := specNum (dropSign l)

/-! ### Theorems and supporting lemmas -/

/-- Occurrence indices of an absent value form the empty list. -/
theorem idxsOfFrom_eq_nil (d : Int) (l : List Int) (hd : d ∉ l) :
    ∀ k, idxsOfFrom d l k = [] := by
  induction l with
  | nil => intro k; rfl
  | cons x xs ih =>
    intro k
    have hx : ¬x = d := fun h => hd (h ▸ List.mem_cons_self x xs)
    rw [idxsOfFrom, if_neg hx]
    exact ih (fun h => hd (List.mem_cons_of_mem x h)) (k + 1)

/-- Shifting the starting offset shifts every reported index. -/
theorem idxsOfFrom_succ (d : Int) (l : List Int) :
    ∀ k, idxsOfFrom d l (k + 1) = (idxsOfFrom d l k).map (· + 1) := by
  induction l with
  | nil => intro k; rfl
  | cons x xs ih =>
    intro k
    by_cases hx : x = d
    · rw [idxsOfFrom, if_pos hx, idxsOfFrom, if_pos hx, List.map_cons, ih (k + 1)]
    · rw [idxsOfFrom, if_neg hx, idxsOfFrom, if_neg hx, ih (k + 1)]

/-- On a strictly ascending list, `np.where` finds exactly the one index at
which the looked-up element sits. -/
theorem idxsOf_sorted (dates : List Int) (hsort : List.Sorted (· < ·) dates) :
    ∀ (i : Nat) (hi : i < dates.length), idxsOf dates (dates.get ⟨i, hi⟩) = [i] := by
  induction dates with
  | nil => intro i hi; exact absurd hi (by simp)
  | cons x xs ih =>
    rcases List.sorted_cons.mp hsort with ⟨hx, hxs⟩
    intro i hi
    match i with
    | 0 =>
      have hne : x ∉ xs := fun h => lt_irrefl x (hx x h)
      show idxsOfFrom x (x :: xs) 0 = [0]
      rw [idxsOfFrom, if_pos rfl, idxsOfFrom_eq_nil x xs hne 1]
    | j + 1 =>
      have hj : j < xs.length := Nat.lt_of_succ_lt_succ hi
      have hget : (x :: xs).get ⟨j + 1, hi⟩ = xs.get ⟨j, hj⟩ := rfl
      rw [hget]
      have hxd : ¬x = xs.get ⟨j, hj⟩ :=
        ne_of_lt (hx _ (List.get_mem xs j hj))
      have hI := ih hxs j hj
      unfold idxsOf at hI
      show idxsOfFrom (xs.get ⟨j, hj⟩) (x :: xs) 0 = [j + 1]
      rw [idxsOfFrom, if_neg hxd, idxsOfFrom_succ, hI]
      rfl

/-- On a list strictly ascending under the key `f`, the inclusive slice
between two positions equals the filter keeping the keys between the two
boundary keys. -/
theorem slice_eq_filter {α : Type} (f : α → Int) (L : List α)
    (hp : L.Pairwise (fun p q => f p < f q)) (si ei : Nat)
    (hsi : si < L.length) (hei : ei < L.length) :
    (L.drop si).take (ei + 1 - si) =
      L.filter (fun p => decide (f (L.get ⟨si, hsi⟩) ≤ f p ∧ f p ≤ f (L.get ⟨ei, hei⟩))) := by
  have hmono : ∀ (i j : Nat) (hi : i < L.length) (hj : j < L.length), i < j →
      f (L.get ⟨i, hi⟩) < f (L.get ⟨j, hj⟩) := by
    intro i j hi hj hij
    have := List.pairwise_iff_getElem.mp hp i j hi hj hij
    simpa [List.get_eq_getElem] using this
  have hmono_le : ∀ (i j : Nat) (hi : i < L.length) (hj : j < L.length), i ≤ j →
      f (L.get ⟨i, hi⟩) ≤ f (L.get ⟨j, hj⟩) := by
    intro i j hi hj hij
    rcases Nat.eq_or_lt_of_le hij with h | h
    · subst h; exact le_rfl
    · exact le_of_lt (hmono i j hi hj h)
  set s := f (L.get ⟨si, hsi⟩) with hsdef
  set e := f (L.get ⟨ei, hei⟩) with hedef
  by_cases hord : si ≤ ei
  · have hsplit : L = L.take si ++ ((L.drop si).take (ei + 1 - si) ++ L.drop (ei + 1)) := by
      conv_lhs => rw [← List.take_append_drop si L]
      congr 1
      conv_lhs => rw [← List.take_append_drop (ei + 1 - si) (L.drop si)]
      congr 1
      rw [List.drop_drop, Nat.add_sub_cancel' (Nat.le_succ_of_le hord)]
    have h1 : ∀ a ∈ L.take si, f a < s := by
      intro a ha
      obtain ⟨j, hj, hja⟩ := List.mem_iff_getElem.mp ha
      have hjsi : j < si := by
        have := hj; rw [List.length_take] at this; omega
      have hjL : j < L.length := lt_of_lt_of_le hjsi (le_of_lt hsi)
      have : (L.take si)[j] = L.get ⟨j, hjL⟩ := by
        simp [List.getElem_take, List.get_eq_getElem]
      rw [this] at hja
      rw [← hja]
      exact hmono j si hjL hsi hjsi
    have h2 : ∀ a ∈ (L.drop si).take (ei + 1 - si), s ≤ f a ∧ f a ≤ e := by
      intro a ha
      obtain ⟨j, hj, hja⟩ := List.mem_iff_getElem.mp ha
      have hjm : j < ei + 1 - si := by
        have := hj; rw [List.length_take, List.length_drop] at this; omega
      have hsj : si + j < L.length := by
        have := hj; rw [List.length_take, List.length_drop] at this; omega
      have : ((L.drop si).take (ei + 1 - si))[j] = L.get ⟨si + j, hsj⟩ := by
        simp [List.getElem_take, List.getElem_drop, List.get_eq_getElem]
      rw [this] at hja
      rw [← hja]
      exact ⟨hmono_le si (si + j) hsi hsj (Nat.le_add_right si j),
             hmono_le (si + j) ei hsj hei (by omega)⟩
    have h3 : ∀ a ∈ L.drop (ei + 1), e < f a := by
      intro a ha
      obtain ⟨j, hj, hja⟩ := List.mem_iff_getElem.mp ha
      have hjL : ei + 1 + j < L.length := by
        have := hj; rw [List.length_drop] at this; omega
      have : (L.drop (ei + 1))[j] = L.get ⟨ei + 1 + j, hjL⟩ := by
        simp [List.getElem_drop, List.get_eq_getElem]
      rw [this] at hja
      rw [← hja]
      exact hmono ei (ei + 1 + j) hei hjL (by omega)
    conv_rhs => rw [hsplit]
    rw [List.filter_append, List.filter_append]
    rw [List.filter_eq_nil_iff.mpr (fun a ha hpa => by
          have := of_decide_eq_true hpa
          exact absurd this.1 (not_le.mpr (h1 a ha)))]
    rw [List.filter_eq_self.mpr (fun a ha => decide_eq_true (h2 a ha))]
    rw [List.filter_eq_nil_iff.mpr (fun a ha hpa => by
          have := of_decide_eq_true hpa
          exact absurd this.2 (not_le.mpr (h3 a ha)))]
    rw [List.nil_append, List.append_nil]
  · have hm : ei + 1 - si = 0 := by omega
    rw [hm]
    refine (List.filter_eq_nil_iff.mpr ?_).symm
    intro a ha hpa
    have hdec := of_decide_eq_true hpa
    have : f (L.get ⟨ei, hei⟩) < f (L.get ⟨si, hsi⟩) := hmono ei si hei hsi (by omega)
    exact absurd (le_trans hdec.1 hdec.2) (not_le.mpr this)

/-- C3 counterexample: on the series with dates `[1, 3]` and values
`[10, 30]`, the window `(0, 2)` is out of range (its start falls before the
first date), yet `subset_data` raises (the `TypeError` from `int(np.where(...))`,
since the in-range end date `2` is not an entry of the dates array) instead
of returning the entries with dates in the clamped range `[1, 2]`. -/
theorem subset_data_out_of_range_errors :
    subset_data [1, 3] [10, 30] 0 2 = .error .whereError ∧
      (0 : Int) < 1 ∧
      List.Sorted (· < ·) ([1, 3] : List Int) :=
  ⟨rfl, by decide, by decide⟩

/-- C3 (amended): for an equal-length, non-empty, strictly ascending series,
`subset_data` replaces a start date falling before the first date or after
the last date by the first date, and symmetrically replaces an end date
outside the range by the last date; provided each clamped endpoint occurs
among the series' dates, it succeeds and returns exactly the entries of the
series whose dates lie in the inclusive clamped range. -/
theorem subset_data_clamped_window (dates data : List Int) (s e first last : Int)
    (hlen : dates.length = data.length)
    (hsort : List.Sorted (· < ·) dates)
    (hh : dates.head? = some first) (hl : dates.getLast? = some last)
    (hs : clampStart first last s ∈ dates) (he : clampEnd first last e ∈ dates) :
    subset_data dates data s e =
      .ok (dates.filter (fun d => decide (clampStart first last s ≤ d ∧ d ≤ clampEnd first last e)),
           ((dates.zip data).filter
              (fun p => decide (clampStart first last s ≤ p.1 ∧ p.1 ≤ clampEnd first last e))).map
             Prod.snd) := by
  obtain ⟨si, hsi, hgs⟩ := List.mem_iff_getElem.mp hs
  obtain ⟨ei, hei, hge⟩ := List.mem_iff_getElem.mp he
  have hgs' : dates.get ⟨si, hsi⟩ = clampStart first last s := by
    simpa [List.get_eq_getElem] using hgs
  have hge' : dates.get ⟨ei, hei⟩ = clampEnd first last e := by
    simpa [List.get_eq_getElem] using hge
  have hidx_s : idxsOf dates (clampStart first last s) = [si] := by
    rw [← hgs']; exact idxsOf_sorted dates hsort si hsi
  have hidx_e : idxsOf dates (clampEnd first last e) = [ei] := by
    rw [← hge']; exact idxsOf_sorted dates hsort ei hei
  have hdates : (dates.drop si).take (ei + 1 - si) =
      dates.filter
        (fun d => decide (clampStart first last s ≤ d ∧ d ≤ clampEnd first last e)) := by
    have hp : dates.Pairwise (fun p q => (fun d => d) p < (fun d => d) q) := by
      simpa using hsort
    have hsl := slice_eq_filter (fun d => d) dates hp si ei hsi hei
    rw [hgs', hge'] at hsl
    simpa using hsl
  have hziplen : (dates.zip data).length = dates.length := by
    rw [List.length_zip, hlen, min_self]
  have hpz : (dates.zip data).Pairwise (fun p q => p.1 < q.1) := by
    rw [List.pairwise_iff_getElem]
    intro i j hi hj hij
    rw [hziplen] at hi hj
    rw [List.getElem_zip, List.getElem_zip]
    exact List.pairwise_iff_getElem.mp hsort i j hi hj hij
  have hsiz : si < (dates.zip data).length := by rw [hziplen]; exact hsi
  have heiz : ei < (dates.zip data).length := by rw [hziplen]; exact hei
  have hz := slice_eq_filter Prod.fst (dates.zip data) hpz si ei hsiz heiz
  have hfst_s : Prod.fst ((dates.zip data).get ⟨si, hsiz⟩) = clampStart first last s := by
    rw [List.get_eq_getElem]
    rw [List.getElem_zip]
    exact hgs
  have hfst_e : Prod.fst ((dates.zip data).get ⟨ei, heiz⟩) = clampEnd first last e := by
    rw [List.get_eq_getElem]
    rw [List.getElem_zip]
    exact hge
  rw [hfst_s, hfst_e] at hz
  have hdata : (data.drop si).take (ei + 1 - si) =
      ((dates.zip data).filter
        (fun p => decide (clampStart first last s ≤ p.1 ∧ p.1 ≤ clampEnd first last e))).map
          Prod.snd := by
    calc (data.drop si).take (ei + 1 - si)
        = (((dates.zip data).map Prod.snd).drop si).take (ei + 1 - si) := by
          rw [List.map_snd_zip dates data (le_of_eq hlen.symm)]
      _ = (((dates.zip data).drop si).map Prod.snd).take (ei + 1 - si) := by
          rw [List.map_drop]
      _ = (((dates.zip data).drop si).take (ei + 1 - si)).map Prod.snd := by
          rw [List.map_take]
      _ = _ := by rw [hz]
  unfold subset_data
  rw [if_neg (not_ne_iff.mpr hlen), hh, hl]
  dsimp only
  rw [hidx_s, hidx_e]
  dsimp only
  rw [hdates, hdata]

/-- Witness for the amended C3 on dates `[1,2,3,4]`, values `[10,20,30,40]`
and the fully out-of-range window `(0, 9)`: both endpoints are clamped and
the whole series is returned. -/
theorem subset_data_clamped_window_witness :
    ([1, 2, 3, 4] : List Int).length = ([10, 20, 30, 40] : List Int).length ∧
      List.Sorted (· < ·) ([1, 2, 3, 4] : List Int) ∧
      ([1, 2, 3, 4] : List Int).head? = some 1 ∧
      ([1, 2, 3, 4] : List Int).getLast? = some 4 ∧
      clampStart 1 4 0 ∈ ([1, 2, 3, 4] : List Int) ∧
      clampEnd 1 4 9 ∈ ([1, 2, 3, 4] : List Int) ∧
      subset_data [1, 2, 3, 4] [10, 20, 30, 40] 0 9 =
        .ok (([1, 2, 3, 4] : List Int).filter
               (fun d => decide (clampStart 1 4 0 ≤ d ∧ d ≤ clampEnd 1 4 9)),
             ((([1, 2, 3, 4] : List Int).zip ([10, 20, 30, 40] : List Int)).filter
               (fun p => decide (clampStart 1 4 0 ≤ p.1 ∧ p.1 ≤ clampEnd 1 4 9))).map
                 Prod.snd) :=
  ⟨rfl, by decide, by decide, by decide, by decide, by decide,
   subset_data_clamped_window [1, 2, 3, 4] [10, 20, 30, 40] 0 9 1 4 rfl
     (by decide) (by decide) (by decide) (by decide) (by decide)⟩

/-- C4: `subset_data` signals the length-mismatch condition exactly when the
two input arrays have different lengths, and in that case no result is
produced. -/
theorem subset_data_lengthMismatch_iff (dates data : List Int) (s e : Int) :
    subset_data dates data s e = .error .lengthMismatch ↔ dates.length ≠ data.length := by
  constructor
  · intro hc
    by_contra hne
    unfold subset_data at hc
    rw [if_neg (not_ne_iff.mpr hne)] at hc
    split at hc
    · split at hc <;> simp at hc
    · simp at hc
  · intro h
    unfold subset_data
    rw [if_pos h]

/-- C5: for two non-empty ascending series, `find_start_end_dates` returns the
pair of the later of the two first dates and the earlier of the two last
dates. -/
theorem find_start_end_dates_spec (a b : List Int) (a0 aL b0 bL : Int)
    (_hsa : List.Sorted (· < ·) a) (_hsb : List.Sorted (· < ·) b)
    (ha0 : a.head? = some a0) (haL : a.getLast? = some aL)
    (hb0 : b.head? = some b0) (hbL : b.getLast? = some bL) :
    find_start_end_dates a b = some (max a0 b0, min aL bL) := by
  unfold find_start_end_dates
  rw [ha0, haL, hb0, hbL]
  dsimp only
  have h1 : (if b0 > a0 then b0 else a0) = max a0 b0 := by
    rcases le_or_lt b0 a0 with h | h
    · rw [if_neg (not_lt.mpr h), max_eq_left h]
    · rw [if_pos h, max_eq_right h.le]
  have h2 : (if bL > aL then aL else bL) = min aL bL := by
    rcases le_or_lt bL aL with h | h
    · rw [if_neg (not_lt.mpr h), min_eq_right h]
    · rw [if_pos h, min_eq_left h.le]
  rw [h1, h2]

/-- Witness for C5 on the spec scenario: series `[1,2,3,4]` and `[2,3,4,5]`
overlap on the window `(2, 4)`. -/
theorem find_start_end_dates_spec_witness :
    find_start_end_dates [1, 2, 3, 4] [2, 3, 4, 5] = some (max 1 2, min 4 5) :=
  find_start_end_dates_spec [1, 2, 3, 4] [2, 3, 4, 5] 1 4 2 5
    (by decide) (by decide) (by decide) (by decide) (by decide) (by decide)

/-- C10: on the disjoint ascending series `[1,2]` and `[5,6]`,
`find_start_end_dates` returns (without signalling any error) the window
`(5, 2)`, whose start is strictly after its end: the `DateWindow` invariant
`start ≤ end` is not enforced. -/
theorem find_start_end_dates_disjoint_inverted :
    find_start_end_dates [1, 2] [5, 6] = some (5, 2) ∧
      List.Sorted (· < ·) ([1, 2] : List Int) ∧
      List.Sorted (· < ·) ([5, 6] : List Int) ∧
      (2 : Int) < 5 := by
  refine ⟨?_, by decide, by decide, by decide⟩
  decide

/-- Each processed line contributes one request per successful data-request
match plus one request per successful site match, independent of the header
match. -/
theorem processLine_requests_length (d : WebData) (l : Chars) :
    (processLine d l).requests.length =
      d.requests.length + (if (searchDvIv l).isSome then 1 else 0) +
        (if (searchSite l).isSome then 1 else 0) := by
  rcases hh : searchHash l with - | g2 <;>
    rcases hd : searchDvIv l with - | ⟨g1, gg2, g3, g4, g5⟩ <;>
      rcases hs : searchSite l with - | gsite <;>
        simp [processLine, hh, hd, hs]

/-- Folding the parser loop accumulates exactly the two match counts on top
of the requests already in the accumulator. -/
theorem foldl_processLine_requests_length (lines : List Chars) :
    ∀ d : WebData, (lines.foldl processLine d).requests.length =
      d.requests.length + lines.countP (fun l => (searchDvIv l).isSome) +
        lines.countP (fun l => (searchSite l).isSome) := by
  induction lines with
  | nil => intro d; simp
  | cons l ls ih =>
    intro d
    rw [List.foldl_cons, ih (processLine d l), processLine_requests_length]
    rw [List.countP_cons, List.countP_cons]
    by_cases h1 : (searchDvIv l).isSome <;> by_cases h2 : (searchSite l).isSome <;>
      simp [h1, h2] <;> omega

/-- C1 (amended): the number of requests returned equals the number of lines
matching the data-request pattern plus the number of lines matching the
site-only pattern; a line matching both patterns contributes two entries,
and lines matching only the header pattern contribute none. -/
theorem read_webrequest_in_request_count (lines : List Chars) :
    (read_webrequest_in lines).requests.length =
      lines.countP (fun l => (searchDvIv l).isSome) +
        lines.countP (fun l => (searchSite l).isSome) := by
  unfold read_webrequest_in
  rw [foldl_processLine_requests_length lines ⟨[], []⟩]
  simp

/-- C1 counterexample: the single line `site\t123\t2014-01-01\t2014-01-02\t00060`
matches both the data-request pattern (with an empty kind field, anchored at
its first tab) and the site-only pattern, so parsing the one-line stream
yields two requests while only one line matches either shape. -/
theorem read_webrequest_in_double_count :
    (read_webrequest_in ["site\t123\t2014-01-01\t2014-01-02\t00060\n".data]).requests.length = 2 ∧
      (["site\t123\t2014-01-01\t2014-01-02\t00060\n".data].filter
        (fun l => (searchDvIv l).isSome || (searchSite l).isSome)).length = 1 := by
  constructor <;> decide

/-- A takeWhile result starting with `d` forces the source to start with `d`
and `d` to satisfy the predicate. -/
theorem takeWhile_eq_cons {p : Char → Bool} {r t : Chars} {d : Char}
    (h : r.takeWhile p = d :: t) : ∃ r', r = d :: r' ∧ p d = true := by
  cases r with
  | nil => simp at h
  | cons x r' =>
    rw [List.takeWhile_cons] at h
    by_cases hp : p x = true
    · rw [if_pos hp] at h
      obtain ⟨h1, -⟩ := List.cons.injEq x _ d t ▸ h
      exact ⟨r', by rw [h1], h1 ▸ hp⟩
    · rw [if_neg hp] at h
      simp at h

/-- The site-only pattern succeeds at a position exactly when the text at
that position starts with `site`, a tab, and a digit. -/
theorem siteAt_isSome_iff (l : Chars) :
    (siteAt l).isSome = true ↔
      ∃ d post, l = 's' :: 'i' :: 't' :: 'e' :: '\t' :: d :: post ∧ d.isDigit = true := by
  constructor
  · intro h
    unfold siteAt at h
    split at h
    · rename_i r
      revert h
      cases ht : r.takeWhile Char.isDigit with
      | nil => intro h; simp at h
      | cons d t =>
        intro _
        obtain ⟨r', hr, hd⟩ := takeWhile_eq_cons ht
        exact ⟨d, r', by rw [hr], hd⟩
    · simp at h
  · rintro ⟨d, post, rfl, hd⟩
    simp [siteAt, List.takeWhile_cons, hd]

/-- The search for the site-only pattern succeeds exactly on lines that
contain `site` followed by a tab and a digit somewhere. -/
theorem searchSite_isSome_iff (l : Chars) :
    (searchSite l).isSome = true ↔
      ∃ pre d post, l = pre ++ 's' :: 'i' :: 't' :: 'e' :: '\t' :: d :: post ∧
        d.isDigit = true := by
  induction l with
  | nil =>
    constructor
    · intro h; simp [searchSite, reSearch, siteAt] at h
    · rintro ⟨pre, d, post, h, -⟩
      exact absurd h.symm (by simp)
  | cons c rest ih =>
    rw [searchSite, reSearch]
    cases hat : siteAt (c :: rest) with
    | some g =>
      simp only [Option.isSome_some, true_iff]
      obtain ⟨d, post, heq, hd⟩ :=
        (siteAt_isSome_iff (c :: rest)).mp (by rw [hat]; rfl)
      exact ⟨[], d, post, heq, hd⟩
    | none =>
      show (searchSite rest).isSome = true ↔ _
      rw [ih]
      constructor
      · rintro ⟨pre, d, post, heq, hd⟩
        exact ⟨c :: pre, d, post, by rw [List.cons_append, heq], hd⟩
      · rintro ⟨pre, d, post, heq, hd⟩
        cases pre with
        | nil =>
          exfalso
          have : (siteAt (c :: rest)).isSome = true :=
            (siteAt_isSome_iff (c :: rest)).mpr ⟨d, post, by simpa using heq, hd⟩
          rw [hat] at this
          exact Bool.noConfusion this
        | cons c' pre' =>
          rw [List.cons_append] at heq
          obtain ⟨-, h2⟩ := List.cons.injEq c rest c' _ ▸ heq
          exact ⟨pre', d, post, h2, hd⟩

/-- C2 (amended): the site-only pattern applies to every line containing the
token `site` followed by a tab and a digit — not only to lines consisting of
exactly that token — and the three shapes are not mutually exclusive: a
header line can simultaneously match the site-only pattern. -/
theorem searchSite_shape_and_overlap :
    (∀ l : Chars, (searchSite l).isSome = true ↔
      ∃ pre d post, l = pre ++ 's' :: 'i' :: 't' :: 'e' :: '\t' :: d :: post ∧
        d.isDigit = true) ∧
      (searchHash ['#', ' ', 's', 'i', 't', 'e', '\t', '1', '2', '3', '\n']).isSome = true ∧
      (searchSite ['#', ' ', 's', 'i', 't', 'e', '\t', '1', '2', '3', '\n']).isSome = true :=
  ⟨searchSite_isSome_iff, by decide, by decide⟩

/-- C2 counterexample: the line `# site\t123` matches both the header shape
and the site-only shape, although it does not consist of the literal token
`site` followed by a tab and digits. -/
theorem site_shape_not_exclusive :
    (searchHash ['#', ' ', 's', 'i', 't', 'e', '\t', '1', '2', '3', '\n']).isSome = true ∧
      (searchSite ['#', ' ', 's', 'i', 't', 'e', '\t', '1', '2', '3', '\n']).isSome = true ∧
      ¬∃ ds : Chars, ['#', ' ', 's', 'i', 't', 'e', '\t', '1', '2', '3', '\n'] =
          ['s', 'i', 't', 'e', '\t'] ++ ds := by
  refine ⟨by decide, by decide, ?_⟩
  rintro ⟨ds, h⟩
  simp at h

/-- A line on which none of the three patterns matches leaves the parser
state untouched. -/
theorem processLine_no_match (d : WebData) (l : Chars)
    (h1 : searchHash l = none) (h2 : searchDvIv l = none) (h3 : searchSite l = none) :
    processLine d l = d := by
  simp [processLine, h1, h2, h3]

/-- Folding the parser loop ignores every line on which no pattern
matches. -/
theorem foldl_processLine_filter (lines : List Chars) :
    ∀ d : WebData, lines.foldl processLine d =
      (lines.filter (fun l =>
        (searchHash l).isSome || (searchDvIv l).isSome || (searchSite l).isSome)).foldl
          processLine d := by
  induction lines with
  | nil => intro d; rfl
  | cons l ls ih =>
    intro d
    by_cases hm : ((searchHash l).isSome || (searchDvIv l).isSome || (searchSite l).isSome) = true
    · simp only [List.foldl_cons, List.filter_cons, hm, if_true, ite_true]
      exact ih (processLine d l)
    · have h1 : searchHash l = none := by
        cases hsh : searchHash l with
        | none => rfl
        | some g => exact absurd (by simp [hsh]) hm
      have h2 : searchDvIv l = none := by
        cases hsh : searchDvIv l with
        | none => rfl
        | some g => exact absurd (by simp [hsh]) hm
      have h3 : searchSite l = none := by
        cases hsh : searchSite l with
        | none => rfl
        | some g => exact absurd (by simp [hsh]) hm
      have hfilter : (l :: ls).filter (fun l =>
          (searchHash l).isSome || (searchDvIv l).isSome || (searchSite l).isSome) =
            ls.filter (fun l =>
              (searchHash l).isSome || (searchDvIv l).isSome || (searchSite l).isSome) := by
        simp [List.filter_cons, h1, h2, h3]
      rw [List.foldl_cons, processLine_no_match d l h1 h2 h3, ih, hfilter]

/-- C8: the parser is total over line content — it always returns a result
(the embedding is a total function), and lines matching none of the three
recognized patterns are silently skipped: parsing any stream gives exactly
the same output as parsing only its pattern-matching lines. -/
theorem read_webrequest_in_skips_unmatched (lines : List Chars) :
    read_webrequest_in lines =
      read_webrequest_in (lines.filter (fun l =>
        (searchHash l).isSome || (searchDvIv l).isSome || (searchSite l).isSome)) :=
  foldl_processLine_filter lines ⟨[], []⟩

/-- Facts about the upper-case hexadecimal digits emitted by the percent
encoder. -/
theorem hexDigit_facts : ∀ n, n < 16 →
    isHexDigit (hexDigit n) = true ∧ hexVal (hexDigit n) = n ∧
      hexDigit n ≠ '&' ∧ hexDigit n ≠ '=' := by decide

/-- Safe characters are neither the plus sign nor the percent sign. -/
theorem alwaysSafe_ne (c : Char) (h : alwaysSafe c = true) : c ≠ '+' ∧ c ≠ '%' :=
  ⟨fun e => absurd (e ▸ h) (by decide), fun e => absurd (e ▸ h) (by decide)⟩

/-- Every character of a quoted string differs from the two query
metacharacters `&` and `=`. -/
theorem mem_quotePlus (v : Chars) (x : Char) (hx : x ∈ quotePlus v) :
    x ≠ '&' ∧ x ≠ '=' := by
  unfold quotePlus at hx
  rw [List.mem_flatten] at hx
  obtain ⟨frag, hfrag, hxf⟩ := hx
  rw [List.mem_map] at hfrag
  obtain ⟨c, -, rfl⟩ := hfrag
  by_cases h1 : alwaysSafe c = true
  · rw [if_pos h1] at hxf
    rcases List.mem_singleton.mp hxf with rfl
    exact ⟨fun e => absurd (e ▸ h1) (by decide), fun e => absurd (e ▸ h1) (by decide)⟩
  · rw [if_neg h1] at hxf
    by_cases h2 : c = ' '
    · rw [if_pos h2] at hxf
      rcases List.mem_singleton.mp hxf with rfl
      exact ⟨by decide, by decide⟩
    · rw [if_neg h2] at hxf
      unfold percentEnc at hxf
      have hlt1 : c.toNat / 16 % 16 < 16 := Nat.mod_lt _ (by norm_num)
      have hlt2 : c.toNat % 16 < 16 := Nat.mod_lt _ (by norm_num)
      rcases List.mem_cons.mp hxf with rfl | hxf
      · exact ⟨by decide, by decide⟩
      rcases List.mem_cons.mp hxf with rfl | hxf
      · exact ⟨(hexDigit_facts _ hlt1).2.2.1, (hexDigit_facts _ hlt1).2.2.2⟩
      rcases List.mem_cons.mp hxf with rfl | hxf
      · exact ⟨(hexDigit_facts _ hlt2).2.2.1, (hexDigit_facts _ hlt2).2.2.2⟩
      · exact absurd hxf (List.not_mem_nil x)

/-- Decoding steps over a character that is neither `+` nor `%`. -/
theorem unquotePlus_cons_safe (c : Char) (r : Chars) (h1 : c ≠ '+') (h2 : c ≠ '%') :
    unquotePlus (c :: r) = c :: unquotePlus r := by
  rw [unquotePlus.eq_def]
  dsimp only
  rw [if_neg h1, if_neg h2]

/-- Decoding inverts one percent escape. -/
theorem unquotePlus_percent (c : Char) (r : Chars) (hc : c.toNat < 256) :
    unquotePlus ('%' :: hexDigit (c.toNat / 16 % 16) :: hexDigit (c.toNat % 16) :: r) =
      c :: unquotePlus r := by
  have hlt1 : c.toNat / 16 % 16 < 16 := Nat.mod_lt _ (by norm_num)
  have hlt2 : c.toNat % 16 < 16 := Nat.mod_lt _ (by norm_num)
  have hf1 := hexDigit_facts _ hlt1
  have hf2 := hexDigit_facts _ hlt2
  rw [unquotePlus.eq_def]
  dsimp only
  rw [if_neg (show ¬('%' : Char) = '+' by decide), if_pos rfl,
      if_pos (show (isHexDigit (hexDigit (c.toNat / 16 % 16)) &&
        isHexDigit (hexDigit (c.toNat % 16))) = true by rw [hf1.1, hf2.1]; rfl),
      hf1.2.1, hf2.2.1]
  congr 1
  have harith : 16 * (c.toNat / 16 % 16) + c.toNat % 16 = c.toNat := by omega
  rw [harith]
  exact Char.ofNat_toNat c

/-- Percent-decoding inverts percent-encoding on byte strings. -/
theorem unquotePlus_quotePlus (v : Chars) (hv : ∀ c ∈ v, c.toNat < 256) :
    unquotePlus (quotePlus v) = v := by
  induction v with
  | nil => rfl
  | cons c v' ih =>
    have hc : c.toNat < 256 := hv c (List.mem_cons_self c v')
    have ih' := ih (fun x hx => hv x (List.mem_cons_of_mem c hx))
    have hq : quotePlus (c :: v') =
        (if alwaysSafe c then [c] else if c = ' ' then ['+'] else percentEnc c) ++
          quotePlus v' := by
      simp [quotePlus]
    rw [hq]
    by_cases h1 : alwaysSafe c = true
    · rw [if_pos h1]
      obtain ⟨hp, hpc⟩ := alwaysSafe_ne c h1
      rw [List.singleton_append, unquotePlus_cons_safe c _ hp hpc, ih']
    · rw [if_neg h1]
      by_cases h2 : c = ' '
      · subst h2
        rw [if_pos rfl, List.singleton_append]
        show unquotePlus ('+' :: quotePlus v') = ' ' :: v'
        rw [unquotePlus.eq_def]
        dsimp only
        rw [if_pos rfl, ih']
      · rw [if_neg h2]
        unfold percentEnc
        rw [List.cons_append, List.cons_append, List.cons_append, List.nil_append,
            unquotePlus_percent c _ hc, ih']

/-- Splitting a separator-free string changes nothing. -/
theorem splitSep_no_sep (sep : Char) (p : Chars) (hp : sep ∉ p) : splitSep sep p = [p] := by
  induction p with
  | nil => rfl
  | cons c r ih =>
    have hc : ¬c = sep := fun h => hp (h ▸ List.mem_cons_self c r)
    simp only [splitSep]
    rw [if_neg hc, ih (fun h => hp (List.mem_cons_of_mem c h))]

/-- Splitting peels one separator-free prefix off. -/
theorem splitSep_append (sep : Char) (p rest : Chars) (hp : sep ∉ p) :
    splitSep sep (p ++ sep :: rest) = p :: splitSep sep rest := by
  induction p with
  | nil =>
    rw [List.nil_append]
    simp only [splitSep]
    rw [if_pos trivial]
  | cons c q ih =>
    have hc : ¬c = sep := fun h => hp (h ▸ List.mem_cons_self c q)
    rw [List.cons_append]
    simp only [splitSep]
    rw [if_neg hc, ih (fun h => hp (List.mem_cons_of_mem c h))]

/-- Unfolding of `intercalate` on a two-or-more list. -/
theorem intercalate_cons₂ (sep : Char) (p q : Chars) (t : List Chars) :
    List.intercalate [sep] (p :: q :: t) = p ++ sep :: List.intercalate [sep] (q :: t) := by
  simp [List.intercalate, List.intersperse]

/-- Unfolding of `intercalate` on a singleton. -/
theorem intercalate_single (sep : Char) (p : Chars) :
    List.intercalate [sep] [p] = p := by
  simp [List.intercalate, List.intersperse]

/-- Splitting on the separator inverts joining with it, provided the parts
are separator-free and the part list is non-empty. -/
theorem splitSep_intercalate (sep : Char) (ps : List Chars) (hne : ps ≠ [])
    (hs : ∀ p ∈ ps, sep ∉ p) :
    splitSep sep (List.intercalate [sep] ps) = ps := by
  induction ps with
  | nil => exact absurd rfl hne
  | cons p t ih =>
    cases t with
    | nil =>
      rw [intercalate_single, splitSep_no_sep sep p (hs p (List.mem_cons_self p []))]
    | cons q t' =>
      rw [intercalate_cons₂ sep p q t',
          splitSep_append sep p _ (hs p (List.mem_cons_self p _)),
          ih (by simp) (fun x hx => hs x (List.mem_cons_of_mem p hx))]

/-- Characters of a joined list come from the parts or are the separator. -/
theorem mem_intercalate (sep : Char) :
    ∀ (ps : List Chars) (x : Char), x ∈ List.intercalate [sep] ps →
      x = sep ∨ ∃ p ∈ ps, x ∈ p
  | [], x, hx => by simp [List.intercalate, List.intersperse] at hx
  | [p], x, hx => by
    rw [intercalate_single] at hx
    exact Or.inr ⟨p, List.mem_cons_self p [], hx⟩
  | p :: q :: t, x, hx => by
    rw [intercalate_cons₂] at hx
    rcases List.mem_append.mp hx with h | h
    · exact Or.inr ⟨p, List.mem_cons_self p _, h⟩
    · rcases List.mem_cons.mp h with rfl | h
      · exact Or.inl rfl
      · rcases mem_intercalate sep (q :: t) x h with h | ⟨p', hp', hx'⟩
        · exact Or.inl h
        · exact Or.inr ⟨p', List.mem_cons_of_mem p hp', hx'⟩

/-- Splitting at the first matching character after a clean prefix. -/
theorem splitFirst_append (p : Char → Bool) (a : Chars) (c : Char) (b : Chars)
    (ha : ∀ x ∈ a, p x = false) (hc : p c = true) :
    splitFirst p (a ++ c :: b) = some (a, b) := by
  induction a with
  | nil =>
    rw [List.nil_append]
    simp only [splitFirst]
    rw [if_pos hc]
  | cons x a' ih =>
    have hx : p x = false := ha x (List.mem_cons_self x a')
    rw [List.cons_append]
    simp only [splitFirst]
    rw [if_neg (by simp [hx]), ih (fun y hy => ha y (List.mem_cons_of_mem x hy))]

/-- Quoting changes nothing on a string of safe characters. -/
theorem quotePlus_safe (s : Chars) (hs : ∀ c ∈ s, alwaysSafe c = true) : quotePlus s = s := by
  induction s with
  | nil => rfl
  | cons c r ih =>
    have h1 := hs c (List.mem_cons_self c r)
    have hq : quotePlus (c :: r) = [c] ++ quotePlus r := by
      simp [quotePlus, h1]
    rw [hq, ih (fun x hx => hs x (List.mem_cons_of_mem c hx)), List.singleton_append]

/-- Splitting a query pair at its first `=` recovers the quoted key and
value. -/
theorem splitEqFirst_pair (k v : Chars) :
    splitEqFirst (quotePlus k ++ '=' :: quotePlus v) = (quotePlus k, quotePlus v) := by
  unfold splitEqFirst
  rw [splitFirst_append (· == '=') (quotePlus k) '=' (quotePlus v)
        (fun x hx => beq_eq_false_iff_ne.mpr (mem_quotePlus k x hx).2)
        (by rfl)]

/-- A quoted query pair contains no ampersand. -/
theorem amp_not_mem_pair (k v : Chars) : '&' ∉ quotePlus k ++ '=' :: quotePlus v := by
  intro hmem
  rcases List.mem_append.mp hmem with h | h
  · exact (mem_quotePlus k '&' h).1 rfl
  · rcases List.mem_cons.mp h with h | h
    · exact absurd h (by decide)
    · exact (mem_quotePlus v '&' h).1 rfl

/-- C6 (amended): provided the request's byte-string fields are genuine byte
strings, its parameter list is non-empty and no parameter code contains a
comma, decoding the encoded query string (splitting on `&`, splitting each
pair at its first `=`, percent-decoding) yields exactly the five keys
`parameterCD`, `endDt`, `startDt`, `site`, `format` paired with the
comma-joined parameter codes, the end date, the start date, the site
identifier and the fixed tag `rdb`; splitting the recovered `parameterCD`
value on commas recovers the original parameter codes. -/
theorem encode_url_roundtrip (r : WebRequest)
    (hb1 : ∀ c ∈ r.siteNumber, c.toNat < 256)
    (hb2 : ∀ c ∈ r.startDate, c.toNat < 256)
    (hb3 : ∀ c ∈ r.endDate, c.toNat < 256)
    (hb4 : ∀ p ∈ r.parameters, ∀ c ∈ p, c.toNat < 256)
    (hne : r.parameters ≠ [])
    (hnc : ∀ p ∈ r.parameters, ',' ∉ p) :
    decodeQuery (encode_url r) =
      [("parameterCD".data, List.intercalate [','] r.parameters),
       ("endDt".data, r.endDate),
       ("startDt".data, r.startDate),
       ("site".data, r.siteNumber),
       ("format".data, "rdb".data)] ∧
      splitSep ',' (List.intercalate [','] r.parameters) = r.parameters := by
  refine ⟨?_, splitSep_intercalate ',' r.parameters hne hnc⟩
  have hbv1 : ∀ c ∈ List.intercalate [','] r.parameters, c.toNat < 256 := by
    intro c hcmem
    rcases mem_intercalate ',' r.parameters c hcmem with rfl | ⟨p, hp, hcp⟩
    · decide
    · exact hb4 p hp c hcp
  have henc : encode_url r = List.intercalate ['&']
      [quotePlus "parameterCD".data ++ '=' :: quotePlus (List.intercalate [','] r.parameters),
       quotePlus "endDt".data ++ '=' :: quotePlus r.endDate,
       quotePlus "startDt".data ++ '=' :: quotePlus r.startDate,
       quotePlus "site".data ++ '=' :: quotePlus r.siteNumber,
       quotePlus "format".data ++ '=' :: quotePlus "rdb".data] := rfl
  have hsplit5 : splitSep '&' (encode_url r) =
      [quotePlus "parameterCD".data ++ '=' :: quotePlus (List.intercalate [','] r.parameters),
       quotePlus "endDt".data ++ '=' :: quotePlus r.endDate,
       quotePlus "startDt".data ++ '=' :: quotePlus r.startDate,
       quotePlus "site".data ++ '=' :: quotePlus r.siteNumber,
       quotePlus "format".data ++ '=' :: quotePlus "rdb".data] := by
    rw [henc]
    refine splitSep_intercalate '&' _ (by simp) ?_
    intro part hpart
    simp only [List.mem_cons, List.not_mem_nil, or_false] at hpart
    rcases hpart with rfl | rfl | rfl | rfl | rfl
    all_goals exact amp_not_mem_pair _ _
  unfold decodeQuery
  rw [hsplit5]
  simp only [List.map_cons, List.map_nil, splitEqFirst_pair]
  rw [unquotePlus_quotePlus "parameterCD".data (by decide),
      unquotePlus_quotePlus "endDt".data (by decide),
      unquotePlus_quotePlus "startDt".data (by decide),
      unquotePlus_quotePlus "site".data (by decide),
      unquotePlus_quotePlus "format".data (by decide),
      unquotePlus_quotePlus "rdb".data (by decide),
      unquotePlus_quotePlus _ hbv1,
      unquotePlus_quotePlus _ hb3,
      unquotePlus_quotePlus _ hb2,
      unquotePlus_quotePlus _ hb1]

/-- Witness for the amended C6 on the request from the repository's own
test: site `03284000`, window 2014-01-01 to 2014-01-15, parameter codes
`00060` and `00065`. -/
theorem encode_url_roundtrip_witness :
    (∀ c ∈ ("03284000".data : Chars), c.toNat < 256) ∧
      (∀ c ∈ ("2014-01-01".data : Chars), c.toNat < 256) ∧
      (∀ c ∈ ("2014-01-15".data : Chars), c.toNat < 256) ∧
      (∀ p ∈ ([("00060".data : Chars), "00065".data] : List Chars), ∀ c ∈ p, c.toNat < 256) ∧
      ([("00060".data : Chars), "00065".data] : List Chars) ≠ [] ∧
      (∀ p ∈ ([("00060".data : Chars), "00065".data] : List Chars), ',' ∉ p) ∧
      (decodeQuery (encode_url
          ⟨"dv".data, "03284000".data, "2014-01-01".data, "2014-01-15".data,
           ["00060".data, "00065".data]⟩) =
        [("parameterCD".data, List.intercalate [','] ["00060".data, "00065".data]),
         ("endDt".data, "2014-01-15".data),
         ("startDt".data, "2014-01-01".data),
         ("site".data, "03284000".data),
         ("format".data, "rdb".data)] ∧
        splitSep ',' (List.intercalate [','] ["00060".data, "00065".data]) =
          ["00060".data, "00065".data]) :=
  ⟨by decide, by decide, by decide, by decide, by decide, by decide,
   encode_url_roundtrip
     ⟨"dv".data, "03284000".data, "2014-01-01".data, "2014-01-15".data,
      ["00060".data, "00065".data]⟩
     (by decide) (by decide) (by decide) (by decide) (by decide) (by decide)⟩

/-- C6 counterexample: a request with an empty parameter list does not
round-trip — the decoded `parameterCD` value is the empty string, and
splitting it on commas yields the one-element list containing the empty
string, not the original empty set of codes. -/
theorem encode_url_empty_params_not_roundtrip :
    (WebRequest.mk "dv".data "03284000".data "2014-01-01".data "2014-03-10".data
        []).parameters = [] ∧
      ((decodeQuery (encode_url (WebRequest.mk "dv".data "03284000".data "2014-01-01".data
          "2014-03-10".data []))).lookup "parameterCD".data).map (splitSep ',') =
        some [[]] ∧
      ([[]] : List Chars) ≠ [] := by
  refine ⟨rfl, ?_, by decide⟩
  decide

/-- C9: the `data type` field of a request has no influence on the encoded
query string. -/
theorem encode_url_ignores_dataType (r : WebRequest) (k : Chars) :
    encode_url { r with dataType := k } = encode_url r := rfl

/-- A digit is not a dot. -/
theorem isDigit_ne_dot (x : Char) (hx : x.isDigit = true) : x ≠ '.' :=
  fun h => absurd (h ▸ hx) (by decide)

/-- A digit is not an exponent marker. -/
theorem isDigit_not_e (x : Char) (hx : x.isDigit = true) : isE x = false := by
  have h1 : x ≠ 'e' := fun h => absurd (h ▸ hx) (by decide)
  have h2 : x ≠ 'E' := fun h => absurd (h ▸ hx) (by decide)
  unfold isE
  rw [decide_eq_false h1, decide_eq_false h2]
  rfl

/-- Splitting at the first match starts by consuming a matching head. -/
theorem splitFirst_cons_pos (p : Char → Bool) (c : Char) (r : Chars) (h : p c = true) :
    splitFirst p (c :: r) = some ([], r) := by
  simp only [splitFirst]
  rw [if_pos h]

/-- Splitting at the first match steps over a non-matching head. -/
theorem splitFirst_cons_neg (p : Char → Bool) (c : Char) (r : Chars) (h : p c = false) :
    splitFirst p (c :: r) = (splitFirst p r).map (fun q => (c :: q.1, q.2)) := by
  simp only [splitFirst]
  rw [if_neg (by simp [h])]
  cases splitFirst p r with
  | none => rfl
  | some q => cases q; rfl

/-- No first match exists in a string of non-matching characters. -/
theorem splitFirst_none_of_all (p : Char → Bool) (l : Chars)
    (hl : ∀ x ∈ l, p x = false) : splitFirst p l = none := by
  induction l with
  | nil => rfl
  | cons c r ih =>
    rw [splitFirst_cons_neg p c r (hl c (List.mem_cons_self c r)),
        ih (fun x hx => hl x (List.mem_cons_of_mem c hx))]
    rfl

/-- Splitting at the first match steps over a non-matching prefix. -/
theorem splitFirst_append_left (p : Char → Bool) (a b : Chars)
    (ha : ∀ x ∈ a, p x = false) :
    splitFirst p (a ++ b) = (splitFirst p b).map (fun q => (a ++ q.1, q.2)) := by
  induction a with
  | nil =>
    rw [List.nil_append]
    cases splitFirst p b with
    | none => rfl
    | some q => cases q; rfl
  | cons c a' ih =>
    rw [List.cons_append, splitFirst_cons_neg p c _ (ha c (List.mem_cons_self c a')),
        ih (fun x hx => ha x (List.mem_cons_of_mem c hx))]
    cases splitFirst p b with
    | none => rfl
    | some q => cases q; rfl

/-- Combined form: a non-matching prefix followed by one further
non-matching character. -/
theorem splitFirst_prefix_cons (p : Char → Bool) (a : Chars) (c : Char) (b : Chars)
    (ha : ∀ x ∈ a, p x = false) (hc : p c = false) :
    splitFirst p (a ++ c :: b) = (splitFirst p b).map (fun q => (a ++ c :: q.1, q.2)) := by
  rw [splitFirst_append_left p a _ ha, splitFirst_cons_neg p c b hc]
  cases splitFirst p b with
  | none => rfl
  | some q => cases q; rfl

/-- A split never produces the empty list of parts. -/
theorem splitSep_ne_nil (sep : Char) (l : Chars) : splitSep sep l ≠ [] := by
  cases l with
  | nil => simp [splitSep]
  | cons c r =>
    simp only [splitSep]
    by_cases h : c = sep
    · rw [if_pos h]; exact List.cons_ne_nil _ _
    · rw [if_neg h]
      cases h2 : splitSep sep r with
      | nil => exact List.cons_ne_nil _ _
      | cons p t => exact List.cons_ne_nil _ _

/-- Every non-separator character of the string lands in some part of the
split. -/
theorem exists_part_of_mem_splitSep (sep : Char) (l : Chars) (x : Char)
    (hx : x ∈ l) (hne : x ≠ sep) : ∃ part ∈ splitSep sep l, x ∈ part := by
  induction l with
  | nil => exact absurd hx (List.not_mem_nil x)
  | cons c r ih =>
    by_cases hc : c = sep
    · have hxr : x ∈ r := by
        rcases List.mem_cons.mp hx with rfl | h
        · exact absurd hc hne
        · exact h
      obtain ⟨part, hpart, hxp⟩ := ih hxr
      refine ⟨part, ?_, hxp⟩
      simp only [splitSep]
      rw [if_pos hc]
      exact List.mem_cons_of_mem _ hpart
    · cases h2 : splitSep sep r with
      | nil => exact absurd h2 (splitSep_ne_nil sep r)
      | cons p t =>
        rcases List.mem_cons.mp hx with rfl | hxr
        · refine ⟨x :: p, ?_, List.mem_cons_self x p⟩
          simp only [splitSep]
          rw [if_neg hc, h2]
          exact List.mem_cons_self _ _
        · obtain ⟨part, hpart, hxp⟩ := ih hxr
          rw [h2] at hpart
          rcases List.mem_cons.mp hpart with rfl | hpt
          · refine ⟨c :: part, ?_, List.mem_cons_of_mem c hxp⟩
            simp only [splitSep]
            rw [if_neg hc, h2]
            exact List.mem_cons_self _ _
          · refine ⟨part, ?_, hxp⟩
            simp only [splitSep]
            rw [if_neg hc, h2]
            exact List.mem_cons_of_mem _ hpt

/-- The first character the digit-run scan refuses is not a digit. -/
theorem dropWhile_head_false {p : Char → Bool} {l r : Chars} {c : Char}
    (h : l.dropWhile p = c :: r) : p c = false := by
  induction l with
  | nil => simp at h
  | cons x l' ih =>
    rw [List.dropWhile_cons] at h
    by_cases hp : p x = true
    · rw [if_pos hp] at h; exact ih h
    · rw [if_neg hp] at h
      injection h with h1 h2
      subst h1
      exact Bool.eq_false_iff.mpr hp

/-- A pure digit string is a mantissa exactly when it is non-empty. -/
theorem specMantissa_digits (d : Chars) (hd : ∀ x ∈ d, x.isDigit = true) :
    specMantissa d = !d.isEmpty := by
  have hnod : '.' ∉ d := fun h => isDigit_ne_dot '.' (hd '.' h) rfl
  unfold specMantissa
  rw [splitSep_no_sep '.' d hnod]
  dsimp only
  rw [List.all_eq_true.mpr hd, Bool.and_true]

/-- A digits-dot-digits string is a mantissa exactly when a digit is
present. -/
theorem specMantissa_dot (d1 d2 : Chars) (h1 : ∀ x ∈ d1, x.isDigit = true)
    (h2 : ∀ x ∈ d2, x.isDigit = true) :
    specMantissa (d1 ++ '.' :: d2) = (!d1.isEmpty || !d2.isEmpty) := by
  have hnod1 : '.' ∉ d1 := fun h => isDigit_ne_dot '.' (h1 '.' h) rfl
  have hnod2 : '.' ∉ d2 := fun h => isDigit_ne_dot '.' (h2 '.' h) rfl
  unfold specMantissa
  rw [splitSep_append '.' d1 d2 hnod1, splitSep_no_sep '.' d2 hnod2]
  dsimp only
  rw [List.all_eq_true.mpr h1, List.all_eq_true.mpr h2]
  rw [Bool.true_and, Bool.true_and]

/-- A string with two dots outside its digit runs is no mantissa. -/
theorem specMantissa_two_dots (d1 d2 rest : Chars)
    (h1 : '.' ∉ d1) (h2 : '.' ∉ d2) :
    specMantissa (d1 ++ '.' :: (d2 ++ '.' :: rest)) = false := by
  obtain ⟨p, t, hr⟩ : ∃ p t, splitSep '.' rest = p :: t := by
    cases h : splitSep '.' rest with
    | nil => exact absurd h (splitSep_ne_nil '.' rest)
    | cons p t => exact ⟨p, t, rfl⟩
  unfold specMantissa
  rw [splitSep_append '.' d1 _ h1, splitSep_append '.' d2 _ h2, hr]

/-- A string containing a character that is neither a digit nor a dot is no
mantissa. -/
theorem specMantissa_false_of_bad (l : Chars) (x : Char) (hx : x ∈ l)
    (hd : x.isDigit = false) (hdot : x ≠ '.') : specMantissa l = false := by
  obtain ⟨part, hpart, hxp⟩ := exists_part_of_mem_splitSep '.' l x hx hdot
  have hpartall : part.all Char.isDigit = false := by
    rw [Bool.eq_false_iff]
    intro hall
    have := List.all_eq_true.mp hall x hxp
    rw [hd] at this
    exact Bool.false_ne_true this
  unfold specMantissa
  cases hsp : splitSep '.' l with
  | nil => exact absurd hsp (splitSep_ne_nil '.' l)
  | cons a t =>
    rw [hsp] at hpart
    cases t with
    | nil =>
      rcases List.mem_cons.mp hpart with rfl | hpt
      · dsimp only
        rw [hpartall, Bool.and_false]
      · exact absurd hpt (List.not_mem_nil part)
    | cons b t' =>
      cases t' with
      | nil =>
        dsimp only
        rcases List.mem_cons.mp hpart with rfl | hpt
        · rw [hpartall, Bool.false_and, Bool.false_and]
        · rcases List.mem_cons.mp hpt with rfl | hpt2
          · rw [hpartall, Bool.and_false, Bool.false_and]
          · exact absurd hpt2 (List.not_mem_nil part)
      | cons d t'' => rfl

/-- The number grammar CPython's float parser consumes coincides with the
spec-side grammar of standard decimal/scientific notation (mantissa split
at dots, exponent split at the first `e`/`E`). -/
theorem numberOk_eq_specNum (t : Chars) : numberOk t = specNum t := by
  have hD1 : ∀ x ∈ t.takeWhile Char.isDigit, x.isDigit = true :=
    fun x hx => List.mem_takeWhile_imp hx
  have hsplit : t.takeWhile Char.isDigit ++ t.dropWhile Char.isDigit = t :=
    List.takeWhile_append_dropWhile Char.isDigit t
  have hD1e : ∀ x ∈ t.takeWhile Char.isDigit, isE x = false :=
    fun x hx => isDigit_not_e x (hD1 x hx)
  cases h1 : t.dropWhile Char.isDigit with
  | nil =>
    have ht : t = t.takeWhile Char.isDigit := by
      conv_lhs => rw [← hsplit]
      rw [h1, List.append_nil]
    have htd : ∀ x ∈ t, x.isDigit = true := fun x hx => hD1 x (ht ▸ hx)
    have hnone : splitFirst isE t = none :=
      splitFirst_none_of_all isE t (fun x hx => isDigit_not_e x (htd x hx))
    unfold numberOk specNum
    rw [h1, hnone]
    dsimp only
    rw [specMantissa_digits t htd]
    conv_rhs => rw [ht]
  | cons c r =>
    have hcnd : c.isDigit = false := dropWhile_head_false h1
    have ht : t = t.takeWhile Char.isDigit ++ c :: r := by
      conv_lhs => rw [← hsplit]
      rw [h1]
    unfold numberOk specNum
    rw [h1]
    dsimp only
    by_cases hdot : c = '.'
    · subst hdot
      rw [if_pos rfl]
      have hD2 : ∀ x ∈ r.takeWhile Char.isDigit, x.isDigit = true :=
        fun x hx => List.mem_takeWhile_imp hx
      have hsplit2 : r.takeWhile Char.isDigit ++ r.dropWhile Char.isDigit = r :=
        List.takeWhile_append_dropWhile Char.isDigit r
      have hnod1 : '.' ∉ t.takeWhile Char.isDigit :=
        fun h => isDigit_ne_dot '.' (hD1 '.' h) rfl
      have hnod2 : '.' ∉ r.takeWhile Char.isDigit :=
        fun h => isDigit_ne_dot '.' (hD2 '.' h) rfl
      have hpre : ∀ x ∈ t.takeWhile Char.isDigit ++ '.' :: r.takeWhile Char.isDigit,
          isE x = false := by
        intro x hx
        rcases List.mem_append.mp hx with h | h
        · exact hD1e x h
        · rcases List.mem_cons.mp h with rfl | h
          · decide
          · exact isDigit_not_e x (hD2 x h)
      cases h2 : r.dropWhile Char.isDigit with
      | nil =>
        have hr : r = r.takeWhile Char.isDigit := by
          conv_lhs => rw [← hsplit2]
          rw [h2, List.append_nil]
        have htt : t = t.takeWhile Char.isDigit ++ '.' :: r.takeWhile Char.isDigit := by
          conv_lhs => rw [ht]
          rw [← hr]
        have hnone : splitFirst isE t = none := by
          rw [htt]
          exact splitFirst_none_of_all isE _ hpre
        rw [hnone]
        dsimp only
        conv_rhs => rw [htt]
        rw [specMantissa_dot _ _ hD1 hD2]
        rw [show expoOk [] = true from rfl, Bool.and_true]
      | cons c2 r3 =>
        have hc2nd : c2.isDigit = false := dropWhile_head_false h2
        have hr : r = r.takeWhile Char.isDigit ++ c2 :: r3 := by
          conv_lhs => rw [← hsplit2]
          rw [h2]
        have hform : t =
            (t.takeWhile Char.isDigit ++ '.' :: r.takeWhile Char.isDigit) ++ c2 :: r3 := by
          rw [List.append_assoc, List.cons_append, ← hr]
          exact ht
        by_cases hE : isE c2 = true
        · have hsf : splitFirst isE t =
              some (t.takeWhile Char.isDigit ++ '.' :: r.takeWhile Char.isDigit, r3) := by
            conv_lhs => rw [hform]
            exact splitFirst_append isE _ c2 r3 hpre hE
          rw [hsf]
          dsimp only
          rw [specMantissa_dot _ _ hD1 hD2]
          simp only [expoOk]
          rw [hE, Bool.true_and]
          rfl
        · have hE' : isE c2 = false := Bool.eq_false_iff.mpr hE
          have hexpo : expoOk (c2 :: r3) = false := by
            simp only [expoOk]
            rw [hE', Bool.false_and]
          rw [hexpo, Bool.and_false]
          have hsf := splitFirst_prefix_cons isE
            (t.takeWhile Char.isDigit ++ '.' :: r.takeWhile Char.isDigit) c2 r3 hpre hE'
          rw [← hform] at hsf
          cases h3 : splitFirst isE t with
          | none =>
            dsimp only
            by_cases hdot2 : c2 = '.'
            · subst hdot2
              have hmant : specMantissa t = false := by
                conv_lhs => rw [ht, hr]
                exact specMantissa_two_dots _ _ r3 hnod1 hnod2
              rw [hmant]
            · have hc2mem : c2 ∈ t := by
                rw [ht, hr]
                exact List.mem_append_right _
                  (List.mem_cons_of_mem '.' (List.mem_append_right _ (List.mem_cons_self c2 r3)))
              rw [specMantissa_false_of_bad t c2 hc2mem hc2nd hdot2]
          | some q =>
            obtain ⟨m, ex⟩ := q
            dsimp only
            rw [h3] at hsf
            cases h4 : splitFirst isE r3 with
            | none =>
              rw [h4] at hsf
              simp only [Option.map] at hsf
              exact Option.noConfusion hsf
            | some q2 =>
              rw [h4] at hsf
              simp only [Option.map] at hsf
              injection hsf with hq
              rw [Prod.mk.injEq] at hq
              obtain ⟨hm, hex⟩ := hq
              by_cases hdot2 : c2 = '.'
              · subst hdot2
                have hmant : specMantissa m = false := by
                  rw [hm, List.append_assoc, List.cons_append]
                  exact specMantissa_two_dots _ _ q2.1 hnod1 hnod2
                rw [hmant, Bool.false_and]
              · have hmant : specMantissa m = false := by
                  rw [hm]
                  exact specMantissa_false_of_bad _ c2
                    (List.mem_append_right _ (List.mem_cons_self c2 q2.1)) hc2nd hdot2
                rw [hmant, Bool.false_and]
    · rw [if_neg hdot]
      by_cases hE : isE c = true
      · have hsf : splitFirst isE t = some (t.takeWhile Char.isDigit, r) := by
          conv_lhs => rw [ht]
          exact splitFirst_append isE _ c r hD1e hE
        rw [hsf]
        dsimp only
        rw [specMantissa_digits _ hD1]
        simp only [expoOk]
        rw [hE, Bool.true_and]
        rfl
      · have hE' : isE c = false := Bool.eq_false_iff.mpr hE
        have hexpo : expoOk (c :: r) = false := by
          simp only [expoOk]
          rw [hE', Bool.false_and]
        rw [hexpo, Bool.and_false]
        have hsf := splitFirst_prefix_cons isE (t.takeWhile Char.isDigit) c r hD1e hE'
        rw [← ht] at hsf
        cases h3 : splitFirst isE t with
        | none =>
          dsimp only
          have hcmem : c ∈ t := by
            rw [ht]
            exact List.mem_append_right _ (List.mem_cons_self c r)
          rw [specMantissa_false_of_bad t c hcmem hcnd hdot]
        | some q =>
          obtain ⟨m, ex⟩ := q
          dsimp only
          rw [h3] at hsf
          cases h4 : splitFirst isE r with
          | none =>
            rw [h4] at hsf
            simp only [Option.map] at hsf
            exact Option.noConfusion hsf
          | some q2 =>
            rw [h4] at hsf
            simp only [Option.map] at hsf
            injection hsf with hq
            rw [Prod.mk.injEq] at hq
            obtain ⟨hm, hex⟩ := hq
            have hmant : specMantissa m = false := by
              rw [hm]
              exact specMantissa_false_of_bad _ c
                (List.mem_append_right _ (List.mem_cons_self c q2.1)) hcnd hdot
            rw [hmant, Bool.false_and]

/-- C7 (amended): `is_float` returns true exactly when the token, after
stripping surrounding ASCII whitespace, is an optionally signed
case-insensitive special token (`inf`, `infinity`, `nan`) or parses —
after an optional sign — under standard decimal/scientific notation; it is
a total Boolean function (never raises), and the three spec scenarios hold:
`12.5e-3` is numeric, `abc` and the empty string are not. -/
theorem is_float_characterization :
    (∀ l : Chars, is_float l =
      (isInfNan (dropSign (pyStrip l)) || standardDecSci (pyStrip l))) ∧
      is_float "12.5e-3".data = true ∧
      is_float "abc".data = false ∧
      is_float "".data = false := by
  refine ⟨?_, by decide, by decide, by decide⟩
  intro l
  unfold is_float pyFloatOk standardDecSci
  rw [numberOk_eq_specNum]

/-- C7 counterexample: `is_float "inf"` is true, but the whitespace-free
token `inf` does not parse under standard decimal/scientific notation, so
`is_numeric` is not equivalent to that grammar. -/
theorem is_float_inf_not_standard :
    is_float "inf".data = true ∧ standardDecSci "inf".data = false ∧
      pyStrip "inf".data = "inf".data :=
  ⟨by decide, by decide, by decide⟩
